import Mathlib

/-!
Shallow embedding of the Lighthouse smoke-test harness
(`lighthouse-cli/test/smokehouse/smokehouse.js`) and of the timing summarizer
(`lighthouse-core/scripts/timings.js`), together with theorems about snapshot
naming, the runner loop, stderr normalization and the summary statistics.

Strings are modelled through their character lists (`String.data`), so that every
operation is a structural recursion and evaluates inside the kernel.  JavaScript
string indices are UTF-16 code-unit indices; for the material below (ASCII
timestamps, markers and URLs) they coincide with character indices.
-/

namespace Smoke

/-- Occurrence test for `needle` inside `hay`, over character lists.  Models the
JavaScript regular-expression test for a fixed literal substring. -/
def charsHaveSub (needle : List Char) : List Char → Bool
  | [] => needle.isEmpty
  | c :: rest => needle.isPrefixOf (c :: rest) || charsHaveSub needle rest

/-- Substring containment on strings. -/
def strHasSub (needle hay : String) : Bool :=
  charsHaveSub needle.data hay.data

/-- Split a character list at newline characters.  Models
`String.prototype.split('\n')`: the result is always non-empty, and empty
segments are kept. -/
def splitCharsOnNL : List Char → List (List Char)
  | [] => [[]]
  | c :: rest =>
    match splitCharsOnNL rest with
    | [] => [[]]
    | h :: t => if c = '\n' then [] :: h :: t else (c :: h) :: t

/-- Model of `runResults.stderr.split('\n')`. -/
def splitLines (s : String) : List String :=
  (splitCharsOnNL s.data).map String.mk

/-- Length of `new Date().toUTCString()`: the format
`Www, dd Mmm yyyy hh:mm:ss GMT` always has 29 characters. -/
def timestampLength : Nat := 29

/-- Alternatives of the regular expression `/^(Mon|Tue|Wed|Thu|Fri|Sat|Sun)/`. -/
def weekdayNames : List String := ["Mon", "Tue", "Wed", "Thu", "Fri", "Sat", "Sun"]

/-- Test of `/^(Mon|Tue|Wed|Thu|Fri|Sat|Sun)/` against a line. -/
def startsWithWeekday (line : String) : Bool :=
  weekdayNames.any (fun w => w.data.isPrefixOf line.data)

/-- Per-line step of the stderr normalization in `runLighthouse`
(smokehouse.js lines 127-130): a line that begins with a weekday name loses its
first `timestampLength + 1` characters (`line.substr(timestampLength + 1)`). -/
def stripTimestamp (line : String) : String :=
  if startsWithWeekday line then String.mk (line.data.drop (timestampLength + 1)) else line

/-- Test of the regular expression `/:(warn|error)/` against a line. -/
def hasWarnOrError (line : String) : Bool :=
  strHasSub ":warn" line || strHasSub ":error" line

/-- The split-then-strip stage of the normalization pipeline. -/
def strippedLines (raw : String) : List String :=
  (splitLines raw).map stripTimestamp

/-- Stderr normalization of `runLighthouse` (smokehouse.js lines 123-131):
split into lines, strip weekday timestamp, keep only the `:warn` / `:error`
lines. -/
def normalizeStderr (raw : String) : List String :=
  (strippedLines raw).filter hasWarnOrError

/-- The same strip-then-filter normalization applied to a line sequence that has
already been split, used to state idempotence of normalization. -/
def normalizeLines (ls : List String) : List String :=
  (ls.map stripTimestamp).filter hasWarnOrError

theorem count_filter_of_true {p : String → Bool} {a : String} (l : List String)
    (h : p a = true) : (l.filter p).count a = l.count a := by
  induction l with
  | nil => rfl
  | cons x xs ih =>
    rw [List.filter_cons]
    by_cases hx : p x = true
    · rw [if_pos hx, List.count_cons, List.count_cons, ih]
    · have hne : (x == a) = false := by
        rw [beq_eq_false_iff_ne]
        intro hxa
        rw [hxa] at hx
        exact hx h
      rw [if_neg (by simp [hx]), ih, List.count_cons, hne]
      simp

theorem count_filter_of_false {p : String → Bool} {a : String} (l : List String)
    (h : p a = false) : (l.filter p).count a = 0 := by
  rw [List.count_eq_zero]
  intro hmem
  have hp := List.of_mem_filter hmem
  rw [h] at hp
  exact Bool.noConfusion hp

/-- C4: normalization splits stderr into lines and strips the fixed-width
timestamp from lines beginning with a weekday name; the retained lines are
exactly those containing a `:warn` or `:error` marker (multiplicities match,
lines without a marker never appear), and their original relative order is
preserved (the output is a sublist of the stripped line sequence). -/
theorem c4_stderr_normalization (raw l : String) :
    (hasWarnOrError l = true → (normalizeStderr raw).count l = (strippedLines raw).count l)
    ∧ (hasWarnOrError l = false → (normalizeStderr raw).count l = 0)
    ∧ (normalizeStderr raw).Sublist (strippedLines raw)
    ∧ (∀ s ∈ normalizeStderr raw, hasWarnOrError s = true)
    ∧ (∀ line, startsWithWeekday line = true →
        stripTimestamp line = String.mk (line.data.drop (timestampLength + 1)))
    ∧ (∀ line, startsWithWeekday line = false → stripTimestamp line = line) := by
  refine ⟨fun h => count_filter_of_true _ h, fun h => count_filter_of_false _ h,
    List.filter_sublist _, fun s hs => List.of_mem_filter hs, fun line h => ?_, fun line h => ?_⟩
  · rw [stripTimestamp, if_pos h]
  · rw [stripTimestamp, if_neg (by simp [h])]

theorem c4_stderr_normalization_witness :
    hasWarnOrError "chrome :warn boo" = true
    ∧ (normalizeStderr "chrome :warn boo\nnoise").count "chrome :warn boo"
        = (strippedLines "chrome :warn boo\nnoise").count "chrome :warn boo"
    ∧ (normalizeStderr "chrome :warn boo\nnoise").Sublist
        (strippedLines "chrome :warn boo\nnoise") := by
  have h := c4_stderr_normalization "chrome :warn boo\nnoise" "chrome :warn boo"
  exact ⟨by decide, h.1 (by decide), h.2.2.1⟩

/-- Raw stderr whose normalized form still begins with a weekday name: the
30-character timestamp is followed by a line that itself starts with `Mon`. -/
def c5raw : String := "Mon, 12 Oct 2026 01:02:03 GMT Mon :warn x"

/-- C5 counterexample: normalization is not idempotent.  On `c5raw` the first
pass yields the single line `Mon :warn x`, which still starts with a weekday
name, so a second pass strips it to the empty string and then filters it out. -/
theorem c5_not_idempotent_ce :
    normalizeLines (normalizeStderr c5raw) ≠ normalizeStderr c5raw := by decide

/-- C5 (amended): normalization is idempotent on every normalized sequence none
of whose lines begins with a weekday name.  (In general a retained line may
itself begin with `Mon`..`Sun`, in which case a second pass strips it again:
see the counterexample.) -/
theorem c5_idempotent_when_no_weekday (raw : String)
    (h : ∀ l ∈ normalizeStderr raw, startsWithWeekday l = false) :
    normalizeLines (normalizeStderr raw) = normalizeStderr raw := by
  have hmap : (normalizeStderr raw).map stripTimestamp = normalizeStderr raw := by
    have := List.map_congr_left (l := normalizeStderr raw) (f := stripTimestamp) (g := id)
      (fun a ha => by rw [stripTimestamp, if_neg (by simp [h a ha])]; rfl)
    rw [this, List.map_id]
  rw [normalizeLines, hmap]
  exact List.filter_eq_self.mpr (fun a ha => List.of_mem_filter ha)

theorem c5_idempotent_when_no_weekday_witness :
    (∀ l ∈ normalizeStderr "x :warn a\nnoise", startsWithWeekday l = false)
    ∧ normalizeLines (normalizeStderr "x :warn a\nnoise")
        = normalizeStderr "x :warn a\nnoise" :=
  ⟨by decide, c5_idempotent_when_no_weekday "x :warn a\nnoise" (by decide)⟩

end Smoke

namespace Smoke

/-!
MD5, as used by `getSnapshotPath` through node's
`crypto.createHash('md5').update(...).digest('hex')`.  Words are natural
numbers reduced modulo `2 ^ 32 = 4294967296`; byte strings are lists of
naturals below 256.
-/

def rotl32 (x n : Nat) : Nat :=
  ((x <<< n) ||| (x >>> (32 - n))) % 4294967296

def md5K : List Nat :=
  [3614090360, 3905402710, 606105819, 3250441966, 4118548399, 1200080426, 2821735955,
   4249261313, 1770035416, 2336552879, 4294925233, 2304563134, 1804603682, 4254626195,
   2792965006, 1236535329, 4129170786, 3225465664, 643717713, 3921069994, 3593408605,
   38016083, 3634488961, 3889429448, 568446438, 3275163606, 4107603335, 1163531501,
   2850285829, 4243563512, 1735328473, 2368359562, 4294588738, 2272392833, 1839030562,
   4259657740, 2763975236, 1272893353, 4139469664, 3200236656, 681279174, 3936430074,
   3572445317, 76029189, 3654602809, 3873151461, 530742520, 3299628645, 4096336452,
   1126891415, 2878612391, 4237533241, 1700485571, 2399980690, 4293915773, 2240044497,
   1873313359, 4264355552, 2734768916, 1309151649, 4149444226, 3174756917, 718787259,
   3951481745]

def md5S : List Nat :=
  [7, 12, 17, 22, 7, 12, 17, 22, 7, 12, 17, 22, 7, 12, 17, 22,
   5, 9, 14, 20, 5, 9, 14, 20, 5, 9, 14, 20, 5, 9, 14, 20,
   4, 11, 16, 23, 4, 11, 16, 23, 4, 11, 16, 23, 4, 11, 16, 23,
   6, 10, 15, 21, 6, 10, 15, 21, 6, 10, 15, 21, 6, 10, 15, 21]

def bytesToWord (bs : List Nat) : Nat :=
  bs.foldr (fun b acc => b + 256 * acc) 0

def md5Step (Mw : Nat → Nat) (i : Nat) (st : Nat × Nat × Nat × Nat) : Nat × Nat × Nat × Nat :=
  let a := st.1
  let b := st.2.1
  let c := st.2.2.1
  let d := st.2.2.2
  let fg : Nat × Nat :=
    if i < 16 then ((b &&& c) ||| ((4294967295 - b) &&& d), i)
    else if i < 32 then ((d &&& b) ||| ((4294967295 - d) &&& c), (5 * i + 1) % 16)
    else if i < 48 then (b ^^^ c ^^^ d, (3 * i + 5) % 16)
    else (c ^^^ (b ||| (4294967295 - d)), (7 * i) % 16)
  let f := (fg.1 + a + md5K.getD i 0 + Mw fg.2) % 4294967296
  (d, (b + rotl32 f (md5S.getD i 0)) % 4294967296, b, c)

def md5RoundsFrom (Mw : Nat → Nat) (i : Nat) : Nat → Nat × Nat × Nat × Nat → Nat × Nat × Nat × Nat
  | 0, st => st
  | fuel + 1, st => md5RoundsFrom Mw (i + 1) fuel (md5Step Mw i st)

def md5Compress (block : List Nat) (st : Nat × Nat × Nat × Nat) : Nat × Nat × Nat × Nat :=
  let Mw := fun g => bytesToWord ((block.drop (4 * g)).take 4)
  let r := md5RoundsFrom Mw 0 64 st
  ((st.1 + r.1) % 4294967296, (st.2.1 + r.2.1) % 4294967296,
   (st.2.2.1 + r.2.2.1) % 4294967296, (st.2.2.2 + r.2.2.2) % 4294967296)

def md5ProcessAux : Nat → List Nat → Nat × Nat × Nat × Nat → Nat × Nat × Nat × Nat
  | 0, _, st => st
  | _, [], st => st
  | fuel + 1, b :: bs, st => md5ProcessAux fuel ((b :: bs).drop 64) (md5Compress ((b :: bs).take 64) st)

def leBytes : Nat → Nat → List Nat
  | 0, _ => []
  | k + 1, n => n % 256 :: leBytes k (n / 256)

def md5Pad (msg : List Nat) : List Nat :=
  let z := (56 - (msg.length + 1) % 64 + 64) % 64
  msg ++ [128] ++ List.replicate z 0 ++ leBytes 8 (8 * msg.length)

def utf8Bytes (c : Char) : List Nat :=
  let n := c.toNat
  if n < 128 then [n]
  else if n < 2048 then [192 + n / 64, 128 + n % 64]
  else if n < 65536 then [224 + n / 4096, 128 + n / 64 % 64, 128 + n % 64]
  else [240 + n / 262144, 128 + n / 4096 % 64, 128 + n / 64 % 64, 128 + n % 64]

def strBytes (s : String) : List Nat :=
  s.data.flatMap utf8Bytes

def hexDigit (n : Nat) : Char :=
  if n < 10 then Char.ofNat (48 + n) else Char.ofNat (87 + n)

def byteHex (b : Nat) : List Char :=
  [hexDigit (b / 16), hexDigit (b % 16)]

def wordHexLE (w : Nat) : List Char :=
  (leBytes 4 w).flatMap byteHex

def md5hex (s : String) : String :=
  let bytes := md5Pad (strBytes s)
  let st := md5ProcessAux bytes.length bytes (1732584193, 4023233417, 2562383102, 271733878)
  String.mk (wordHexLE st.1 ++ wordHexLE st.2.1 ++ wordHexLE st.2.2.1 ++ wordHexLE st.2.2.2)

/-- Parsed components of an expectation's `lhr.requestedUrl`: `base` is
`url.href` after `url.search` has been cleared, `search` is `url.search`
(empty, or starting with `?`).  WHATWG URL parsing itself is the platform's. -/
structure SnapshotUrl where
  base : String
  search : String
deriving DecidableEq

/-- Replacement of every non-alphanumeric character by an underscore, the
`url.href.replace(/[^a-zA-Z0-9]/g, '_')` step. -/
def escapeNonAlnum (s : String) : String :=
  String.mk (s.data.map (fun c => if c.isAlphanum then c else '_'))

/-- Model of `getSnapshotPath` (smokehouse.js lines 145-153).  The source hashes
the string literal `'url.search'` - `update('url.search')`, quotes included -
not the value `url.search`.  The `__dirname` path of the snapshot directory is
constant during a run and abbreviated to `snapshots/`. -/
def getSnapshotPath (u : SnapshotUrl) : String :=
  let searchHash := if u.search = "" then "" else String.mk ((md5hex "url.search").data.take 6)
  "snapshots/" ++ escapeNonAlnum u.base ++ "_" ++ searchHash ++ ".json"

set_option maxRecDepth 8000 in
/-- C1 is violated by the code: because `getSnapshotPath` hashes the string
literal `'url.search'` instead of the query string, two expectations with the
same base URL and different non-empty query strings receive the same snapshot
filename (the hash suffix is always `792c07`), although the function's own
comment promises a unique filename per expectation with hashed search params. -/
theorem c1_snapshot_path_query_collision :
    getSnapshotPath ⟨"https://x.test/", "?a=1"⟩ = getSnapshotPath ⟨"https://x.test/", "?b=2"⟩
    ∧ ("?a=1" : String) ≠ "?b=2"
    ∧ getSnapshotPath ⟨"https://x.test/", "?a=1"⟩
        = "snapshots/https___x_test__792c07.json" := by decide

end Smoke

namespace Smoke

/-- Structured `runtimeError` field of a Lighthouse result (`lhr.runtimeError`),
present or absent. -/
structure RuntimeError where
  code : String
deriving DecidableEq

/-- The part of a parsed Lighthouse report (`JSON.parse` of the output file)
that the harness reads. -/
structure LHR where
  requestedUrl : String
  runtimeError : Option RuntimeError
deriving DecidableEq

/-- Outcome of one `spawnSync` invocation: the child's exit status and its raw
stderr stream. -/
structure SpawnResult where
  status : Int
  stderr : String
deriving DecidableEq

/-- Exit code signalling a debugger connection timeout (smokehouse.js line 22). -/
def PROTOCOL_TIMEOUT_EXIT_CODE : Int := 67

/-- Retry ceiling of the spawn loop (smokehouse.js line 23). -/
def RETRIES : Nat := 3

/-- Model of the `do`/`while` spawn-retry loop of `runLighthouse`
(smokehouse.js lines 77-87).  `runs i` is the `SpawnResult` of attempt `i`
(0-based); `runCount` is the source's counter before the increment of the
current iteration and `msgs` counts the retry messages printed so far (one at
the top of every iteration with `runCount > 0`).  The result is the final
`runCount`, the final `runResults` and the number of retry messages printed.
The fuel argument equals `RETRIES - runCount`, so running out of fuel coincides
with the loop guard `runCount <= RETRIES` failing. -/
def runLoopAux (runs : Nat → SpawnResult) (runCount msgs : Nat) : Nat → Nat × SpawnResult × Nat
  | 0 => (runCount + 1, runs runCount, if 0 < runCount then msgs + 1 else msgs)
  | fuel + 1 =>
    let msgs' := if 0 < runCount then msgs + 1 else msgs
    let r := runs runCount
    if r.status = PROTOCOL_TIMEOUT_EXIT_CODE ∧ runCount + 1 ≤ RETRIES then
      runLoopAux runs (runCount + 1) msgs' fuel
    else
      (runCount + 1, r, msgs')

/-- The spawn-retry loop started as in the source: `runCount = 0`, no messages
printed yet. -/
def runLoop (runs : Nat → SpawnResult) : Nat × SpawnResult × Nat :=
  runLoopAux runs 0 0 RETRIES

/-- Result of `runLighthouse` after the retry loop succeeded: the parsed report
and the normalized stderr lines. -/
structure RunnerResult where
  lhr : LHR
  stderr : List String
deriving DecidableEq

/-- Either `process.exit(code)` was reached or `runLighthouse` returned. -/
inductive RunStep where
  | exited (code : Int)
  | ok (r : RunnerResult)
deriving DecidableEq

/-- Model of `runLighthouse` after the spawn loop (smokehouse.js lines 94-137).
`report` is the parsed content of the output report file if `fs.existsSync`
finds one (`none` models a missing report).  After the timeout and
missing-report checks, the exit-code/`runtimeError` invariant of lines 116-121
exits with 1 on disagreement; otherwise the normalized stderr is returned. -/
def runLighthouse (runs : Nat → SpawnResult) (report : Option LHR) : RunStep :=
  let out := runLoop runs
  let exitCode := out.2.1.status
  if exitCode = PROTOCOL_TIMEOUT_EXIT_CODE then .exited 1
  else
    match report with
    | none => .exited exitCode
    | some lhr =>
      if (exitCode != 0) ≠ lhr.runtimeError.isSome then .exited 1
      else .ok ⟨lhr, normalizeStderr out.2.1.stderr⟩

/-- JSON string escaping of one character, as in `JSON.stringify` (BMP
characters; the snapshot lines are ASCII in practice). -/
def jsonEscapeChar (c : Char) : List Char :=
  if c = '"' then ['\\', '"']
  else if c = '\\' then ['\\', '\\']
  else if c = '\n' then ['\\', 'n']
  else if c = '\r' then ['\\', 'r']
  else if c = '\t' then ['\\', 't']
  else if c.toNat = 8 then ['\\', 'b']
  else if c.toNat = 12 then ['\\', 'f']
  else if c.toNat < 32 then '\\' :: 'u' :: '0' :: '0' :: byteHex c.toNat
  else [c]

/-- A JSON string literal for `s`. -/
def jsonQuoteString (s : String) : String :=
  String.mk ('"' :: (s.data.flatMap jsonEscapeChar ++ ['"']))

/-- Concatenation of a list of strings with a separator between elements. -/
def joinWith (sep : String) : List String → String
  | [] => ""
  | [x] => x
  | x :: y :: rest => x ++ sep ++ joinWith sep (y :: rest)

/-- Content written by `fs.writeFileSync(snapshotPath,
JSON.stringify(results.stderr, null, 2))`: the JSON array of the stderr lines,
pretty-printed with a two-space indent. -/
def jsonStringifyLines : List String → String
  | [] => "[]"
  | l :: ls => "[\n" ++ joinWith ",\n" ((l :: ls).map (fun s => "  " ++ jsonQuoteString s)) ++ "\n]"

/-- One entry of the expectations list.  `stderr` is the field the harness sets
from the snapshot; callers must leave it unset (line 182 throws otherwise). -/
structure Expectation where
  lhr : LHR
  stderr : Option (List String)
deriving DecidableEq

/-- Per-expectation environment: the behaviour of the external tool and file
system for this expectation.  `runs` feeds the spawn loop, `report` is the
parsed report file (if produced), `snapshot` is the `JSON.parse` of the
existing snapshot file (`none` when `fs.existsSync(snapshotPath)` is false) and
`lhrCounts` abstracts the pass/fail pair contributed by the structural LHR
comparison dimensions of the collation step. -/
structure ToolEnv where
  runs : Nat → SpawnResult
  report : Option LHR
  snapshot : Option (List String)
  lhrCounts : Nat × Nat

/-- Modelled from the spec: `collateResults` and `report` live in
smokehouse-report.js, which is not part of this repository snapshot.  Per the
spec they produce a pass/failed count pair per expectation; the error-line
dimension compares the expected stderr lines with the observed ones and, when
the expected error lines are unset, that comparison dimension is skipped and
contributes nothing to either count.  The structural result comparison is
abstracted as the environment-supplied pair `lhrCounts`. -/
def collateCounts (lhrCounts : Nat × Nat) (expectedStderr : Option (List String))
    (actual : List String) : Nat × Nat :=
  match expectedStderr with
  | none => lhrCounts
  | some exp =>
    if exp = actual then (lhrCounts.1 + 1, lhrCounts.2) else (lhrCounts.1, lhrCounts.2 + 1)

/-- Observable effects of processing one expectation without a fatal exit:
what was written to the snapshot path, the expected stderr used for
comparison, whether the missing-snapshot note was printed, and the pass/fail
counts reported for this expectation. -/
structure StepOut where
  written : Option String
  expectedStderr : Option (List String)
  missingNote : Bool
  passed : Nat
  failed : Nat
deriving DecidableEq

/-- Result of the body of `expectations.forEach` for one expectation:
a `process.exit`, the `Do not set stderr directly` throw, or a normal step. -/
inductive StepResult where
  | exited (code : Int)
  | thrown
  | stepped (s : StepOut)
deriving DecidableEq

/-- Model of the body of `expectations.forEach` (smokehouse.js lines 177-208):
run Lighthouse, guard against a pre-set `stderr`, handle the snapshot file
according to `fs.existsSync` and the `-u` flag (lines 183-202), then collate
and count. -/
def processExpectation (update : Bool) (env : ToolEnv) (e : Expectation) : StepResult :=
  match runLighthouse env.runs env.report with
  | .exited c => .exited c
  | .ok results =>
    if e.stderr.isSome then .thrown
    else
      let wx : Option String × Option (List String) × Bool :=
        match env.snapshot, update with
        | some _, true => (some (jsonStringifyLines results.stderr), some results.stderr, false)
        | some saved, false => (none, some saved, false)
        | none, true => (some (jsonStringifyLines results.stderr), some results.stderr, false)
        | none, false => (none, none, true)
      let counts := collateCounts env.lhrCounts wx.2.1 results.stderr
      .stepped ⟨wx.1, wx.2.1, wx.2.2, counts.1, counts.2⟩

/-- Outcome of the whole run: aborted inside the loop by a `process.exit` (or
the uncaught throw, which also terminates node with a nonzero status, modelled
as code 1), or finished with the accumulated counts and the final exit status
of lines 211-217. -/
inductive LoopOutcome where
  | aborted (code : Int)
  | finished (passing failing : Nat) (exitCode : Int)
deriving DecidableEq

/-- The `expectations.forEach` loop with accumulated counters
(`passingCount` / `failingCount`), followed by the final exit of lines
211-217. -/
def runExpectationsFrom (update : Bool) (passing failing : Nat) :
    List (Expectation × ToolEnv) → LoopOutcome
  | [] => .finished passing failing (if 0 < failing then 1 else 0)
  | (e, env) :: rest =>
    match processExpectation update env e with
    | .exited c => .aborted c
    | .thrown => .aborted 1
    | .stepped s => runExpectationsFrom update (passing + s.passed) (failing + s.failed) rest

/-- The whole run over the expectations list. -/
def runExpectations (update : Bool) (xs : List (Expectation × ToolEnv)) : LoopOutcome :=
  runExpectationsFrom update 0 0 xs

end Smoke

namespace Smoke

theorem runLighthouse_mismatch (runs : Nat → SpawnResult) (report : Option LHR) (lhr : LHR)
    (hrep : report = some lhr)
    (hto : (runLoop runs).2.1.status ≠ PROTOCOL_TIMEOUT_EXIT_CODE)
    (hmis : ((runLoop runs).2.1.status != 0) ≠ lhr.runtimeError.isSome) :
    runLighthouse runs report = .exited 1 := by
  simp only [runLighthouse, hrep, if_neg hto]
  rw [if_pos hmis]

theorem runLighthouse_ok (runs : Nat → SpawnResult) (report : Option LHR) (lhr : LHR)
    (hrep : report = some lhr)
    (hto : (runLoop runs).2.1.status ≠ PROTOCOL_TIMEOUT_EXIT_CODE)
    (hagr : ((runLoop runs).2.1.status != 0) = lhr.runtimeError.isSome) :
    runLighthouse runs report = .ok ⟨lhr, normalizeStderr (runLoop runs).2.1.stderr⟩ := by
  simp only [runLighthouse, hrep, if_neg hto]
  rw [if_neg (by simp [hagr])]

/-- C2: when the spawn loop ends without the timeout code and a report exists,
disagreement between the truthiness of the exit code and the presence of
`lhr.runtimeError` makes the whole run abort with exit status 1 immediately, no
matter how many expectations remain unprocessed; agreement lets the expectation
proceed to the normal snapshot/comparison step. -/
theorem c2_exit_runtime_error_invariant (u : Bool) (e : Expectation) (env : ToolEnv)
    (lhr : LHR) (hrep : env.report = some lhr)
    (hto : (runLoop env.runs).2.1.status ≠ PROTOCOL_TIMEOUT_EXIT_CODE) :
    ((((runLoop env.runs).2.1.status != 0) ≠ lhr.runtimeError.isSome) →
      ∀ rest : List (Expectation × ToolEnv),
        runExpectations u ((e, env) :: rest) = .aborted 1)
    ∧ ((((runLoop env.runs).2.1.status != 0) = lhr.runtimeError.isSome) →
      e.stderr = none →
      ∃ s : StepOut, processExpectation u env e = .stepped s) := by
  constructor
  · intro hmis rest
    have hstep : processExpectation u env e = .exited 1 := by
      simp only [processExpectation, runLighthouse_mismatch env.runs env.report lhr hrep hto hmis]
    simp only [runExpectations, runExpectationsFrom, hstep]
  · intro hagr hpre
    have hlh := runLighthouse_ok env.runs env.report lhr hrep hto hagr
    simp only [processExpectation, hlh, hpre, Option.isSome_none, Bool.false_eq_true, if_false]
    cases env.snapshot <;> cases u
    · exact ⟨_, rfl⟩
    · exact ⟨_, rfl⟩
    · exact ⟨_, rfl⟩
    · exact ⟨_, rfl⟩

def c2runs : Nat → SpawnResult := fun _ => ⟨1, ""⟩

def c2lhr : LHR := ⟨"https://x.test/", none⟩

def c2env : ToolEnv := ⟨c2runs, some c2lhr, none, (0, 0)⟩

def c2exp : Expectation := ⟨c2lhr, none⟩

theorem c2_exit_runtime_error_invariant_witness :
    c2env.report = some c2lhr
    ∧ (runLoop c2env.runs).2.1.status ≠ PROTOCOL_TIMEOUT_EXIT_CODE
    ∧ ((runLoop c2env.runs).2.1.status != 0) ≠ c2lhr.runtimeError.isSome
    ∧ runExpectations false [(c2exp, c2env)] = .aborted 1 :=
  ⟨rfl, by decide, by decide,
    (c2_exit_runtime_error_invariant false c2exp c2env c2lhr rfl (by decide)).1 (by decide) []⟩

theorem runLoopAux_attempts_ge (runs : Nat → SpawnResult) :
    ∀ (fuel runCount msgs : Nat), runCount + 1 ≤ (runLoopAux runs runCount msgs fuel).1 := by
  intro fuel
  induction fuel with
  | zero => intro rc m; exact Nat.le_refl _
  | succ fuel ih =>
    intro rc m
    by_cases h : (runs rc).status = PROTOCOL_TIMEOUT_EXIT_CODE ∧ rc + 1 ≤ RETRIES
    · simp only [runLoopAux, if_pos h]
      exact Nat.le_trans (by omega) (ih (rc + 1) _)
    · simp only [runLoopAux, if_neg h]
      omega

theorem runLoopAux_attempts_le (runs : Nat → SpawnResult) :
    ∀ (fuel runCount msgs : Nat), (runLoopAux runs runCount msgs fuel).1 ≤ runCount + fuel + 1 := by
  intro fuel
  induction fuel with
  | zero => intro rc m; exact Nat.le_refl _
  | succ fuel ih =>
    intro rc m
    by_cases h : (runs rc).status = PROTOCOL_TIMEOUT_EXIT_CODE ∧ rc + 1 ≤ RETRIES
    · simp only [runLoopAux, if_pos h]
      exact Nat.le_trans (ih (rc + 1) _) (by omega)
    · simp only [runLoopAux, if_neg h]
      omega

theorem runLoopAux_msgs_pos (runs : Nat → SpawnResult) :
    ∀ (fuel runCount msgs : Nat), 0 < runCount →
      (runLoopAux runs runCount msgs fuel).2.2 + runCount
        = msgs + (runLoopAux runs runCount msgs fuel).1 := by
  intro fuel
  induction fuel with
  | zero =>
    intro rc m hrc
    simp only [runLoopAux, if_pos hrc]
    omega
  | succ fuel ih =>
    intro rc m hrc
    by_cases h : (runs rc).status = PROTOCOL_TIMEOUT_EXIT_CODE ∧ rc + 1 ≤ RETRIES
    · simp only [runLoopAux, if_pos h, if_pos hrc]
      have := ih (rc + 1) (m + 1) (by omega)
      omega
    · simp only [runLoopAux, if_neg h, if_pos hrc]
      omega

theorem runLoopAux_msgs_zero (runs : Nat → SpawnResult) :
    ∀ (fuel msgs : Nat),
      (runLoopAux runs 0 msgs fuel).2.2 + 1 = msgs + (runLoopAux runs 0 msgs fuel).1 := by
  intro fuel
  cases fuel with
  | zero => intro m; simp [runLoopAux]
  | succ fuel =>
    intro m
    by_cases h : (runs 0).status = PROTOCOL_TIMEOUT_EXIT_CODE ∧ 0 + 1 ≤ RETRIES
    · simp only [runLoopAux, if_pos h, Nat.lt_irrefl, if_false]
      exact runLoopAux_msgs_pos runs fuel 1 m (by omega)
    · simp only [runLoopAux, if_neg h, Nat.lt_irrefl, if_false]

theorem runLoopAux_all_timeout (runs : Nat → SpawnResult)
    (h : ∀ i, i ≤ RETRIES → (runs i).status = PROTOCOL_TIMEOUT_EXIT_CODE) :
    ∀ (fuel runCount msgs : Nat), runCount + fuel = RETRIES →
      (runLoopAux runs runCount msgs fuel).1 = RETRIES + 1
      ∧ (runLoopAux runs runCount msgs fuel).2.1 = runs RETRIES := by
  intro fuel
  induction fuel with
  | zero =>
    intro rc m hq
    have hrc : rc = RETRIES := by omega
    subst hrc
    exact ⟨rfl, rfl⟩
  | succ fuel ih =>
    intro rc m hq
    have hguard : (runs rc).status = PROTOCOL_TIMEOUT_EXIT_CODE ∧ rc + 1 ≤ RETRIES :=
      ⟨h rc (by omega), by omega⟩
    simp only [runLoopAux, if_pos hguard]
    exact ih (rc + 1) _ (by omega)

end Smoke

namespace Smoke

/-- C3: the spawn loop makes at most `RETRIES + 1 = 4` attempts, logs a retry
message before every retry (the message count is always one less than the
attempt count), retries at least once whenever the first attempt signals the
debugger-timeout code, and when every attempt up to the ceiling signals that
code it performs exactly 4 attempts, logs 3 retry messages, and the whole run
terminates with process exit status 1 regardless of remaining expectations. -/
theorem c3_debugger_timeout_retries (runs : Nat → SpawnResult) :
    (runLoop runs).1 ≤ RETRIES + 1
    ∧ (runLoop runs).2.2 + 1 = (runLoop runs).1
    ∧ ((runs 0).status = PROTOCOL_TIMEOUT_EXIT_CODE → 2 ≤ (runLoop runs).1)
    ∧ ((∀ i, i ≤ RETRIES → (runs i).status = PROTOCOL_TIMEOUT_EXIT_CODE) →
        (runLoop runs).1 = RETRIES + 1
        ∧ (runLoop runs).2.2 = RETRIES
        ∧ (runLoop runs).2.1.status = PROTOCOL_TIMEOUT_EXIT_CODE
        ∧ ∀ (u : Bool) (e : Expectation) (env : ToolEnv)
            (rest : List (Expectation × ToolEnv)), env.runs = runs →
            runExpectations u ((e, env) :: rest) = .aborted 1) := by
  refine ⟨?_, ?_, fun h67 => ?_, fun hall => ?_⟩
  · show (runLoopAux runs 0 0 RETRIES).1 ≤ RETRIES + 1
    have := runLoopAux_attempts_le runs RETRIES 0 0
    omega
  · show (runLoopAux runs 0 0 RETRIES).2.2 + 1 = (runLoopAux runs 0 0 RETRIES).1
    have := runLoopAux_msgs_zero runs RETRIES 0
    omega
  · have hstep : runLoop runs
        = if (runs 0).status = PROTOCOL_TIMEOUT_EXIT_CODE ∧ 0 + 1 ≤ RETRIES then
            runLoopAux runs 1 0 2
          else (1, runs 0, 0) := rfl
    rw [hstep, if_pos ⟨h67, by decide⟩]
    exact runLoopAux_attempts_ge runs 2 1 0
  · have hmain := runLoopAux_all_timeout runs hall RETRIES 0 0 (by decide)
    have hmsgs := runLoopAux_msgs_zero runs RETRIES 0
    have hstatus : (runLoop runs).2.1.status = PROTOCOL_TIMEOUT_EXIT_CODE := by
      show (runLoopAux runs 0 0 RETRIES).2.1.status = PROTOCOL_TIMEOUT_EXIT_CODE
      rw [hmain.2]
      exact hall RETRIES (Nat.le_refl _)
    have hmsg2 : (runLoop runs).2.2 = RETRIES := by
      show (runLoopAux runs 0 0 RETRIES).2.2 = RETRIES
      have h1 := hmain.1
      omega
    refine ⟨hmain.1, hmsg2, hstatus, fun u e env rest hruns => ?_⟩
    have hlh : runLighthouse env.runs env.report = .exited 1 := by
      simp only [runLighthouse, hruns]
      rw [if_pos hstatus]
    have hstep : processExpectation u env e = .exited 1 := by
      simp only [processExpectation, hlh]
    simp only [runExpectations, runExpectationsFrom, hstep]

def c3runs : Nat → SpawnResult := fun _ => ⟨67, ""⟩

def c3lhr : LHR := ⟨"https://x.test/", none⟩

def c3env : ToolEnv := ⟨c3runs, none, none, (0, 0)⟩

def c3exp : Expectation := ⟨c3lhr, none⟩

theorem c3_debugger_timeout_retries_witness :
    (∀ i, i ≤ RETRIES → (c3runs i).status = PROTOCOL_TIMEOUT_EXIT_CODE)
    ∧ (runLoop c3runs).1 = RETRIES + 1
    ∧ (runLoop c3runs).2.2 = RETRIES
    ∧ runExpectations true [(c3exp, c3env)] = .aborted 1 := by
  have h := (c3_debugger_timeout_retries c3runs).2.2.2 (fun i _ => rfl)
  exact ⟨fun i _ => rfl, h.1, h.2.1, h.2.2.2 true c3exp c3env [] rfl⟩

end Smoke

namespace Smoke

/-- C6: with update mode on, whether or not a snapshot file existed, the content
written to the snapshot path is exactly the freshly normalized stderr sequence
serialized as a JSON array, and that same sequence becomes the expected error
lines for this run's comparison. -/
theorem c6_update_mode_snapshot (e : Expectation) (env : ToolEnv) (lhr : LHR)
    (hrep : env.report = some lhr)
    (hto : (runLoop env.runs).2.1.status ≠ PROTOCOL_TIMEOUT_EXIT_CODE)
    (hagr : ((runLoop env.runs).2.1.status != 0) = lhr.runtimeError.isSome)
    (hpre : e.stderr = none) :
    ∃ s : StepOut, processExpectation true env e = .stepped s
      ∧ s.written = some (jsonStringifyLines (normalizeStderr (runLoop env.runs).2.1.stderr))
      ∧ s.expectedStderr = some (normalizeStderr (runLoop env.runs).2.1.stderr) := by
  have hlh := runLighthouse_ok env.runs env.report lhr hrep hto hagr
  simp only [processExpectation, hlh, hpre, Option.isSome_none, Bool.false_eq_true, if_false]
  cases env.snapshot
  · exact ⟨_, rfl, rfl, rfl⟩
  · exact ⟨_, rfl, rfl, rfl⟩

def c6runs : Nat → SpawnResult := fun _ => ⟨0, "x :warn 1\njunk"⟩

def c6lhr : LHR := ⟨"https://x.test/", none⟩

def c6env : ToolEnv := ⟨c6runs, some c6lhr, some ["old :warn"], (2, 1)⟩

def c6exp : Expectation := ⟨c6lhr, none⟩

theorem c6_update_mode_snapshot_witness :
    c6env.report = some c6lhr
    ∧ (runLoop c6env.runs).2.1.status ≠ PROTOCOL_TIMEOUT_EXIT_CODE
    ∧ ((runLoop c6env.runs).2.1.status != 0) = c6lhr.runtimeError.isSome
    ∧ c6exp.stderr = none
    ∧ ∃ s : StepOut, processExpectation true c6env c6exp = .stepped s
        ∧ s.written = some (jsonStringifyLines (normalizeStderr (runLoop c6env.runs).2.1.stderr))
        ∧ s.expectedStderr = some (normalizeStderr (runLoop c6env.runs).2.1.stderr) :=
  ⟨rfl, by decide, by decide, rfl,
    c6_update_mode_snapshot c6exp c6env c6lhr rfl (by decide) (by decide) rfl⟩

/-- C7: with update mode off and no existing snapshot, the expected error lines
stay unset, so the error-line comparison dimension is skipped and only the
structural comparison counts are reported, nothing is written, the
missing-snapshot note is printed, and the loop continues with the remaining
expectations. -/
theorem c7_missing_snapshot_skips (e : Expectation) (env : ToolEnv) (lhr : LHR)
    (hrep : env.report = some lhr)
    (hto : (runLoop env.runs).2.1.status ≠ PROTOCOL_TIMEOUT_EXIT_CODE)
    (hagr : ((runLoop env.runs).2.1.status != 0) = lhr.runtimeError.isSome)
    (hpre : e.stderr = none) (hsnap : env.snapshot = none)
    (passing failing : Nat) (rest : List (Expectation × ToolEnv)) :
    ∃ s : StepOut, processExpectation false env e = .stepped s
      ∧ s.expectedStderr = none
      ∧ s.written = none
      ∧ s.missingNote = true
      ∧ s.passed = env.lhrCounts.1
      ∧ s.failed = env.lhrCounts.2
      ∧ runExpectationsFrom false passing failing ((e, env) :: rest)
          = runExpectationsFrom false (passing + env.lhrCounts.1) (failing + env.lhrCounts.2)
              rest := by
  have hlh := runLighthouse_ok env.runs env.report lhr hrep hto hagr
  have hstep : processExpectation false env e
      = .stepped ⟨none, none, true, env.lhrCounts.1, env.lhrCounts.2⟩ := by
    simp only [processExpectation, hlh, hpre, Option.isSome_none, Bool.false_eq_true, if_false,
      hsnap]
    rfl
  exact ⟨_, hstep, rfl, rfl, rfl, rfl, rfl, by simp only [runExpectationsFrom, hstep]⟩

def c7runs : Nat → SpawnResult := fun _ => ⟨0, ":error boom\n"⟩

def c7lhr : LHR := ⟨"https://y.test/", none⟩

def c7env : ToolEnv := ⟨c7runs, some c7lhr, none, (3, 2)⟩

def c7exp : Expectation := ⟨c7lhr, none⟩

theorem c7_missing_snapshot_skips_witness :
    c7env.snapshot = none
    ∧ c7exp.stderr = none
    ∧ ∃ s : StepOut, processExpectation false c7env c7exp = .stepped s
        ∧ s.expectedStderr = none
        ∧ s.written = none
        ∧ s.missingNote = true
        ∧ s.passed = c7env.lhrCounts.1
        ∧ s.failed = c7env.lhrCounts.2
        ∧ runExpectationsFrom false 0 0 [(c7exp, c7env)]
            = runExpectationsFrom false (0 + c7env.lhrCounts.1) (0 + c7env.lhrCounts.2) [] :=
  ⟨rfl, rfl,
    c7_missing_snapshot_skips c7exp c7env c7lhr rfl (by decide) (by decide) rfl rfl 0 0 []⟩

end Smoke

namespace Timings

/-!
Embedding of `lighthouse-core/scripts/timings.js`.  The file holds two variants
of the summarizer: a function-based one (`summarize()`, lines 84-128) and a
top-level `argv.summarize` block (lines 229-276).  They share the accumulation
code and differ in the row construction (rounded vs raw min/max) and in the
sort comparator (measure-then-url vs measure only).  Durations are modelled as
rationals; `Math.sqrt` composed with the tenth-rounding is embedded as the
exactly rounded value (see `jsSqrtRound10`).
-/

/-- Fuel-based integer square root (the fuel only bounds the `n / 4` descent,
`isqrt n` with fuel `n` is exact). -/
def isqrtAux : Nat → Nat → Nat
  | 0, n => n
  | fuel + 1, n =>
    if n < 2 then n else
    let r := 2 * isqrtAux fuel (n / 4)
    if (r + 1) * (r + 1) ≤ n then r + 1 else r

/-- Integer square root: the greatest `r` with `r * r ≤ n`. -/
def isqrt (n : Nat) : Nat := isqrtAux n n

theorem isqrtAux_spec (fuel : Nat) : ∀ n : Nat, n ≤ fuel →
    isqrtAux fuel n * isqrtAux fuel n ≤ n
    ∧ n < (isqrtAux fuel n + 1) * (isqrtAux fuel n + 1) := by
  induction fuel with
  | zero =>
    intro n hn
    interval_cases n
    simp [isqrtAux]
  | succ fuel ih =>
    intro n hn
    by_cases h2 : n < 2
    · simp only [isqrtAux, if_pos h2]
      interval_cases n <;> simp
    · have hrec : n / 4 ≤ fuel := by omega
      obtain ⟨hlo, hhi⟩ := ih (n / 4) hrec
      simp only [isqrtAux, if_neg h2]
      set q := isqrtAux fuel (n / 4) with hq
      have h4 : 4 * (n / 4) ≤ n := by omega
      have h4' : n ≤ 4 * (n / 4) + 3 := by omega
      have hsq : (2 * q + 1 + 1) * (2 * q + 1 + 1) = 4 * ((q + 1) * (q + 1)) := by ring
      have hsq2 : (2 * q) * (2 * q) = 4 * (q * q) := by ring
      by_cases hc : (2 * q + 1) * (2 * q + 1) ≤ n
      · simp only [if_pos hc]
        exact ⟨hc, by linarith⟩
      · simp only [if_neg hc]
        exact ⟨by linarith, Nat.lt_of_not_le hc⟩

theorem isqrt_spec (n : Nat) :
    isqrt n * isqrt n ≤ n ∧ n < (isqrt n + 1) * (isqrt n + 1) :=
  isqrtAux_spec n n (Nat.le_refl n)

/-- One entry of `lhr.timing.entries`. -/
structure TimingEntry where
  name : String
  duration : ℚ
deriving DecidableEq

/-- The part of a stored Lighthouse result file that the summarizer reads. -/
structure TimingLhr where
  requestedUrl : String
  entries : List TimingEntry
deriving DecidableEq

/-- The `measuresMap` (a JavaScript `Map<string, number[]>`): an association
list in insertion order; `measures.push(d)` appends to the entry in place. -/
def pushSample : List (String × List ℚ) → String → ℚ → List (String × List ℚ)
  | [], k, v => [(k, [v])]
  | (k', vs) :: t, k, v =>
    if k' = k then (k', vs ++ [v]) :: t else (k', vs) :: pushSample t k v

/-- Lookup in the measures map (`measuresMap.get`). -/
def mapFind : List (String × List ℚ) → String → Option (List ℚ)
  | [], _ => none
  | (k', vs) :: t, k => if k' = k then some vs else mapFind t k

/-- The `measureFilter` guard: `measureFilter && !measureFilter.test(name)`
skips the entry.  The case-insensitive regex test is abstracted as a Boolean
predicate (`none` models a null filter). -/
def keepName (mf : Option (String → Bool)) (nm : String) : Bool :=
  match mf with
  | none => true
  | some f => f nm

/-- The inner accumulation loop of the summarizer (timings.js lines 89-105 and
240-257): iterate over `lhr.timing.entries.map(entry => entry.name)`, skip
filtered names, and push `entries.find(measure => measure.name === measureName)
.duration` (the first entry of that name) under the key
`url + '@@@' + name`; a missing find throws `missing measure`. -/
def accumNames (mf : Option (String → Bool)) (url : String) (entries : List TimingEntry) :
    List String → List (String × List ℚ) → Except String (List (String × List ℚ))
  | [], m => .ok m
  | nm :: rest, m =>
    if keepName mf nm = false then accumNames mf url entries rest m
    else
      match entries.find? (fun e => e.name = nm) with
      | none => .error "missing measure"
      | some entry =>
          accumNames mf url entries rest (pushSample m (url ++ "@@@" ++ nm) entry.duration)

/-- Accumulation of one result file into the measures map. -/
def accumLhr (mf : Option (String → Bool)) (lhr : TimingLhr)
    (m : List (String × List ℚ)) : Except String (List (String × List ℚ)) :=
  accumNames mf lhr.requestedUrl lhr.entries (lhr.entries.map (fun e => e.name)) m

/-- Accumulation of every result file of the collection directory, in order. -/
def accumLhrs (mf : Option (String → Bool)) :
    List TimingLhr → List (String × List ℚ) → Except String (List (String × List ℚ))
  | [], m => .ok m
  | lhr :: rest, m =>
    match accumLhr mf lhr m with
    | .error msg => .error msg
    | .ok m' => accumLhrs mf rest m'

/-- The summarizer's `average`: `values.reduce((sum, value) => sum + value) /
values.length` (never called on an empty list; on `[]` this model yields `0`
where the source would throw). -/
def average (values : List ℚ) : ℚ := values.sum / values.length

/-- The summarizer's `round` ("Round to the tenth"):
`Math.round(value * 10) / 10`, with `Math.round y = ⌊y + 1/2⌋`. -/
def roundJS (value : ℚ) : ℚ := ((⌊value * 10 + 1 / 2⌋ : ℤ) : ℚ) / 10

/-- Numerator over 10 of `round(Math.sqrt x)` for `x ≥ 0`, computed exactly:
this is `⌊10 * sqrt x + 1/2⌋`, obtained from the integer square root of
`⌊400 * x⌋` (binary64 `Math.sqrt` agrees with the exact value except within
rounding distance of a tie, which no claim exercises). -/
def jsSqrtRound10 (x : ℚ) : ℕ := (isqrt (Int.toNat ⌊400 * x⌋) + 1) / 2

/-- Model of `round(Math.sqrt x)`. -/
def roundSqrt (x : ℚ) : ℚ := (jsSqrtRound10 x : ℚ) / 10

/-- Model of `Math.min(...measures)` (the empty case, `Infinity`, is never
reached). -/
def listMin : List ℚ → ℚ
  | [] => 0
  | x :: xs => xs.foldl min x

/-- Model of `Math.max(...measures)`. -/
def listMax : List ℚ → ℚ
  | [] => 0
  | x :: xs => xs.foldl max x

/-- One output row of the summarizer.  The function-based variant labels the
first field `measure`, the top-level one `measureName`; both hold the
measurement name. -/
structure SummaryRow where
  measureName : String
  url : String
  n : Nat
  mean : ℚ
  stdev : ℚ
  min : ℚ
  max : ℚ
deriving DecidableEq

/-- Split a character list at the first occurrence of `sep`, if any. -/
def breakOnSub (sep : List Char) : List Char → Option (List Char × List Char)
  | [] => none
  | c :: rest =>
    if sep.isPrefixOf (c :: rest) then some ([], (c :: rest).drop sep.length)
    else
      match breakOnSub sep rest with
      | some p => some (c :: p.1, p.2)
      | none => none

/-- Model of `const [url, measureName] = measuresKey.split('@@@')`: the first
two segments of the split (a missing segment destructures to `undefined`,
modelled as the empty string). -/
def splitKey (key : String) : String × String :=
  match breakOnSub "@@@".data key.data with
  | none => (key, "")
  | some p =>
    match breakOnSub "@@@".data p.2 with
    | none => (String.mk p.1, String.mk p.2)
    | some q => (String.mk p.1, String.mk q.1)

/-- Row construction of the function-based `summarize()` (timings.js lines
108-122): mean, stdev, min and max are all passed through `round`. -/
def mkRowFn (kv : String × List ℚ) : SummaryRow :=
  let url := (splitKey kv.1).1
  let measureName := (splitKey kv.1).2
  let mean := average kv.2
  let mn := listMin kv.2
  let mx := listMax kv.2
  ⟨measureName, url, kv.2.length, roundJS mean,
    roundSqrt (average (kv.2.map (fun measure => (measure - mean) ^ 2))),
    roundJS mn, roundJS mx⟩

/-- Row construction of the top-level `argv.summarize` block (timings.js lines
259-273): mean and stdev are rounded, min and max are raw. -/
def mkRowTop (kv : String × List ℚ) : SummaryRow :=
  let url := (splitKey kv.1).1
  let measureName := (splitKey kv.1).2
  let mean := average kv.2
  let mn := listMin kv.2
  let mx := listMax kv.2
  ⟨measureName, url, kv.2.length, roundJS mean,
    roundSqrt (average (kv.2.map (fun measure => (measure - mean) ^ 2))),
    mn, mx⟩

/-- Strict lexicographic comparison of character lists. -/
def charListLt : List Char → List Char → Bool
  | [], [] => false
  | [], _ :: _ => true
  | _ :: _, [] => false
  | a :: as, b :: bs => if a < b then true else if b < a then false else charListLt as bs

/-- Embedding of `String.prototype.localeCompare` as the deterministic
lexicographic comparison by character code (what the default collator yields on
the ASCII measurement names and URLs at hand): negative, zero or positive. -/
def localeCompare (a b : String) : Int :=
  if charListLt a.data b.data then -1 else if charListLt b.data a.data then 1 else 0

/-- Comparator of the function-based variant (timings.js lines 123-128):
by measure name, then by URL. -/
def rowCompareFn (a b : SummaryRow) : Int :=
  let measureComp := localeCompare a.measureName b.measureName
  if measureComp ≠ 0 then measureComp else localeCompare a.url b.url

/-- Comparator of the top-level variant (timings.js lines 274-276): by measure
name only. -/
def rowCompareTop (a b : SummaryRow) : Int :=
  localeCompare a.measureName b.measureName

/-- Insertion into a sorted prefix, placing `x` after every element that
compares `≤ 0` against it: the stable-sort insertion of
`Array.prototype.sort`. -/
def sortInsert {α : Type} (le : α → α → Bool) (x : α) : List α → List α
  | [] => [x]
  | y :: ys => if le y x then y :: sortInsert le x ys else x :: y :: ys

/-- Left fold of stable insertion: elements are inserted in input order, so
ties keep their original relative order. -/
def jsSortAux {α : Type} (le : α → α → Bool) : List α → List α → List α
  | acc, [] => acc
  | acc, x :: xs => jsSortAux le (sortInsert le x acc) xs

/-- Model of `Array.prototype.sort(comparator)`: the stable sort by the total
preorder `comparator(a, b) <= 0`. -/
def jsSort {α : Type} (le : α → α → Bool) (l : List α) : List α :=
  jsSortAux le [] l

/-- Row order of the function-based variant as a Boolean relation. -/
def rowLeFn (a b : SummaryRow) : Bool := decide (rowCompareFn a b ≤ 0)

/-- Row order of the top-level variant as a Boolean relation. -/
def rowLeTop (a b : SummaryRow) : Bool := decide (rowCompareTop a b ≤ 0)

/-- Sorted rows of the function-based `summarize()`. -/
def sortRowsFn (rows : List SummaryRow) : List SummaryRow := jsSort rowLeFn rows

/-- Sorted rows of the top-level `argv.summarize` block. -/
def sortRowsTop (rows : List SummaryRow) : List SummaryRow := jsSort rowLeTop rows

/-- The whole function-based summarize pipeline on parsed result files. -/
def summarizeFn (mf : Option (String → Bool)) (lhrs : List TimingLhr) :
    Except String (List SummaryRow) :=
  match accumLhrs mf lhrs [] with
  | .error msg => .error msg
  | .ok m => .ok (sortRowsFn (m.map mkRowFn))

/-- The whole top-level summarize pipeline on parsed result files. -/
def summarizeTop (mf : Option (String → Bool)) (lhrs : List TimingLhr) :
    Except String (List SummaryRow) :=
  match accumLhrs mf lhrs [] with
  | .error msg => .error msg
  | .ok m => .ok (sortRowsTop (m.map mkRowTop))

end Timings

namespace Timings

theorem foldl_min_mem (xs : List ℚ) : ∀ x : ℚ, xs.foldl min x = x ∨ xs.foldl min x ∈ xs := by
  induction xs with
  | nil => intro x; exact Or.inl rfl
  | cons y ys ih =>
    intro x
    rw [List.foldl_cons]
    rcases ih (min x y) with h | h
    · rcases min_choice x y with hc | hc
      · exact Or.inl (by rw [h, hc])
      · exact Or.inr (by rw [h, hc]; exact List.mem_cons_self y ys)
    · exact Or.inr (List.mem_cons_of_mem y h)

theorem foldl_min_le (xs : List ℚ) :
    ∀ x : ℚ, xs.foldl min x ≤ x ∧ ∀ y ∈ xs, xs.foldl min x ≤ y := by
  induction xs with
  | nil =>
    intro x
    refine ⟨le_refl x, ?_⟩
    intro y hy
    cases hy
  | cons z zs ih =>
    intro x
    rw [List.foldl_cons]
    obtain ⟨h1, h2⟩ := ih (min x z)
    refine ⟨le_trans h1 (min_le_left x z), ?_⟩
    intro y hy
    rcases List.mem_cons.mp hy with hz | hmem
    · rw [hz]
      exact le_trans h1 (min_le_right x z)
    · exact h2 y hmem

theorem foldl_max_mem (xs : List ℚ) : ∀ x : ℚ, xs.foldl max x = x ∨ xs.foldl max x ∈ xs := by
  induction xs with
  | nil => intro x; exact Or.inl rfl
  | cons y ys ih =>
    intro x
    rw [List.foldl_cons]
    rcases ih (max x y) with h | h
    · rcases max_choice x y with hc | hc
      · exact Or.inl (by rw [h, hc])
      · exact Or.inr (by rw [h, hc]; exact List.mem_cons_self y ys)
    · exact Or.inr (List.mem_cons_of_mem y h)

theorem foldl_max_ge (xs : List ℚ) :
    ∀ x : ℚ, x ≤ xs.foldl max x ∧ ∀ y ∈ xs, y ≤ xs.foldl max x := by
  induction xs with
  | nil =>
    intro x
    refine ⟨le_refl x, ?_⟩
    intro y hy
    cases hy
  | cons z zs ih =>
    intro x
    rw [List.foldl_cons]
    obtain ⟨h1, h2⟩ := ih (max x z)
    refine ⟨le_trans (le_max_left x z) h1, ?_⟩
    intro y hy
    rcases List.mem_cons.mp hy with hz | hmem
    · rw [hz]
      exact le_trans (le_max_right x z) h1
    · exact h2 y hmem

theorem average_sq_nonneg (l : List ℚ) (c : ℚ) :
    0 ≤ average (l.map (fun m => (m - c) ^ 2)) := by
  rw [average]
  apply div_nonneg
  · apply List.sum_nonneg
    intro x hx
    obtain ⟨y, _, rfl⟩ := List.mem_map.mp hx
    positivity
  · positivity

/-- Correct-rounding property of `jsSqrtRound10`: for `x ≥ 0` the value `k` is
`⌊10 * sqrt x + 1/2⌋`, characterized by `(k - 1/2)^2 ≤ 100 x < (k + 1/2)^2`
without mentioning a real square root. -/
theorem jsSqrtRound10_spec (x : ℚ) (hx : 0 ≤ x) :
    (1 ≤ jsSqrtRound10 x → ((jsSqrtRound10 x : ℚ) - 1 / 2) ^ 2 ≤ 100 * x)
    ∧ 100 * x < ((jsSqrtRound10 x : ℚ) + 1 / 2) ^ 2 := by
  have hF0 : (0 : ℤ) ≤ ⌊400 * x⌋ := Int.floor_nonneg.mpr (by positivity)
  set F : ℕ := Int.toNat ⌊400 * x⌋ with hFdef
  have hFcast : ((F : ℕ) : ℤ) = ⌊400 * x⌋ := by
    rw [hFdef]
    exact Int.toNat_of_nonneg hF0
  have hFle : (F : ℚ) ≤ 400 * x := by
    have hfl := Int.floor_le (400 * x)
    rw [← hFcast] at hfl
    exact_mod_cast hfl
  have hFgt : 400 * x < (F : ℚ) + 1 := by
    have hfl := Int.lt_floor_add_one (400 * x)
    rw [← hFcast] at hfl
    exact_mod_cast hfl
  obtain ⟨hs1, hs2⟩ := isqrt_spec F
  set s : ℕ := isqrt F with hsdef
  have hk : jsSqrtRound10 x = (s + 1) / 2 := rfl
  set k : ℕ := (s + 1) / 2 with hkdef
  have hk1 : 2 * k ≤ s + 1 := by omega
  have hk2 : s ≤ 2 * k := by omega
  constructor
  · intro h1k
    rw [hk]
    have hle : 2 * k - 1 ≤ s := by omega
    have hn : (2 * k - 1) * (2 * k - 1) ≤ F :=
      Nat.le_trans (Nat.mul_le_mul hle hle) hs1
    have hq : (((2 * k - 1 : ℕ) : ℚ)) * ((2 * k - 1 : ℕ) : ℚ) ≤ (F : ℚ) := by
      exact_mod_cast hn
    have hcast : ((2 * k - 1 : ℕ) : ℚ) = 2 * (k : ℚ) - 1 := by
      have : (1 : ℕ) ≤ 2 * k := by omega
      push_cast [Nat.cast_sub this]
      ring
    rw [hcast] at hq
    nlinarith [hq, hFle]
  · rw [hk]
    have hn : F + 1 ≤ (2 * k + 1) * (2 * k + 1) := by
      have h1 : F + 1 ≤ (s + 1) * (s + 1) := hs2
      have h2 : (s + 1) * (s + 1) ≤ (2 * k + 1) * (2 * k + 1) :=
        Nat.mul_le_mul (by omega) (by omega)
      omega
    have hq : (F : ℚ) + 1 ≤ (2 * (k : ℚ) + 1) * (2 * (k : ℚ) + 1) := by
      exact_mod_cast hn
    nlinarith [hq, hFgt]

/-- C8: for a non-empty sample list, a summary row reports the sample count,
the arithmetic mean rounded to one decimal (`j / 10` with `j` the half-up
rounding of ten times the mean), the exact minimum and maximum of the samples,
and the population standard deviation (squared deviations averaged over `n`,
not `n - 1`) rounded to one decimal, characterized by
`(k - 1/2)^2 ≤ 100 * variance < (k + 1/2)^2` for the tenths numerator `k`.
Stated for the top-level `argv.summarize` block's rows (`mkRowTop`); the
function-based variant additionally rounds min and max. -/
theorem c8_summary_statistics (kv : String × List ℚ) (h : kv.2 ≠ []) :
    (mkRowTop kv).n = kv.2.length
    ∧ (∃ j : ℤ, (mkRowTop kv).mean = (j : ℚ) / 10
        ∧ (j : ℚ) ≤ 10 * average kv.2 + 1 / 2 ∧ 10 * average kv.2 < (j : ℚ) + 1 / 2)
    ∧ (mkRowTop kv).min ∈ kv.2
    ∧ (∀ y ∈ kv.2, (mkRowTop kv).min ≤ y)
    ∧ (mkRowTop kv).max ∈ kv.2
    ∧ (∀ y ∈ kv.2, y ≤ (mkRowTop kv).max)
    ∧ (∃ k : ℕ, (mkRowTop kv).stdev = (k : ℚ) / 10
        ∧ (1 ≤ k → ((k : ℚ) - 1 / 2) ^ 2
            ≤ 100 * average (kv.2.map (fun m => (m - average kv.2) ^ 2)))
        ∧ 100 * average (kv.2.map (fun m => (m - average kv.2) ^ 2))
            < ((k : ℚ) + 1 / 2) ^ 2) := by
  obtain ⟨x, xs, hcons⟩ := List.exists_cons_of_ne_nil h
  have hmean : (mkRowTop kv).mean = roundJS (average kv.2) := rfl
  have hmin : (mkRowTop kv).min = listMin kv.2 := rfl
  have hmax : (mkRowTop kv).max = listMax kv.2 := rfl
  have hstdev : (mkRowTop kv).stdev
      = roundSqrt (average (kv.2.map (fun m => (m - average kv.2) ^ 2))) := rfl
  refine ⟨rfl, ?_, ?_, ?_, ?_, ?_, ?_⟩
  · refine ⟨⌊average kv.2 * 10 + 1 / 2⌋, by rw [hmean]; rfl, ?_, ?_⟩
    · have := Int.floor_le (average kv.2 * 10 + 1 / 2)
      linarith
    · have := Int.lt_floor_add_one (average kv.2 * 10 + 1 / 2)
      linarith
  · rw [hmin, hcons, listMin]
    rcases foldl_min_mem xs x with hm | hm
    · rw [hm]; exact List.mem_cons_self x xs
    · exact List.mem_cons_of_mem x hm
  · intro y hy
    rw [hmin, hcons, listMin]
    obtain ⟨h1, h2⟩ := foldl_min_le xs x
    rcases List.mem_cons.mp (hcons ▸ hy) with hz | hmem
    · rw [hz]; exact h1
    · exact h2 y hmem
  · rw [hmax, hcons, listMax]
    rcases foldl_max_mem xs x with hm | hm
    · rw [hm]; exact List.mem_cons_self x xs
    · exact List.mem_cons_of_mem x hm
  · intro y hy
    rw [hmax, hcons, listMax]
    obtain ⟨h1, h2⟩ := foldl_max_ge xs x
    rcases List.mem_cons.mp (hcons ▸ hy) with hz | hmem
    · rw [hz]; exact h1
    · exact h2 y hmem
  · have hV := average_sq_nonneg kv.2 (average kv.2)
    obtain ⟨hlow, hhigh⟩ := jsSqrtRound10_spec _ hV
    exact ⟨jsSqrtRound10 (average (kv.2.map (fun m => (m - average kv.2) ^ 2))),
      by rw [hstdev]; rfl, hlow, hhigh⟩

end Timings

namespace Timings

def c8kv : String × List ℚ := ("https://x.test/@@@script-evaluation", [100, 200, 300])

theorem c8_summary_statistics_witness :
    c8kv.2 ≠ []
    ∧ (mkRowTop c8kv).min ∈ c8kv.2
    ∧ (mkRowTop c8kv).n = 3
    ∧ (mkRowTop c8kv).mean = 200
    ∧ (mkRowTop c8kv).stdev = 816 / 10
    ∧ (mkRowTop c8kv).min = 100
    ∧ (mkRowTop c8kv).max = 300
    ∧ (mkRowTop c8kv).measureName = "script-evaluation"
    ∧ (mkRowTop c8kv).url = "https://x.test/" := by
  have happ := c8_summary_statistics c8kv (by simp [c8kv])
  have hV : average (c8kv.2.map (fun m => (m - average c8kv.2) ^ 2)) = 20000 / 3 := by
    norm_num [average, c8kv, List.sum_cons, List.sum_nil, List.map_cons, List.map_nil]
  have hfloor : (⌊(400 : ℚ) * (20000 / 3)⌋ : ℤ) = 2666666 := by norm_num
  have hisq : isqrt 2666666 = 1632 := by decide
  have hstdev : (mkRowTop c8kv).stdev = roundSqrt (20000 / 3) := by
    rw [show (mkRowTop c8kv).stdev
        = roundSqrt (average (c8kv.2.map (fun m => (m - average c8kv.2) ^ 2))) from rfl, hV]
  refine ⟨by simp [c8kv], happ.2.2.1, rfl, ?_, ?_, ?_, ?_, by decide, by decide⟩
  · show roundJS (average c8kv.2) = 200
    norm_num [roundJS, average, c8kv, List.sum_cons, List.sum_nil]
  · rw [hstdev, roundSqrt, jsSqrtRound10, hfloor]
    have ht : Int.toNat (2666666 : ℤ) = 2666666 := rfl
    rw [ht, hisq]
    norm_num
  · show listMin c8kv.2 = 100
    norm_num [listMin, c8kv, List.foldl_cons, List.foldl_nil, min_def]
  · show listMax c8kv.2 = 300
    norm_num [listMax, c8kv, List.foldl_cons, List.foldl_nil, max_def]

end Timings

namespace Timings

theorem charListLt_asymm : ∀ l₁ l₂, charListLt l₁ l₂ = true → charListLt l₂ l₁ = false := by
  intro l₁
  induction l₁ with
  | nil =>
    intro l₂ h
    cases l₂ with
    | nil => exact absurd h (by simp [charListLt])
    | cons b bs => simp [charListLt]
  | cons a as ih =>
    intro l₂ h
    cases l₂ with
    | nil => exact absurd h (by simp [charListLt])
    | cons b bs =>
      simp only [charListLt] at h ⊢
      rcases lt_trichotomy a b with hab | hab | hab
      · simp [hab, not_lt.mpr (le_of_lt hab)]
      · subst hab
        simp only [lt_irrefl, if_false] at h ⊢
        exact ih bs h
      · simp [hab, not_lt.mpr (le_of_lt hab)] at h

theorem charListLt_trans :
    ∀ l₁ l₂ l₃, charListLt l₁ l₂ = true → charListLt l₂ l₃ = true → charListLt l₁ l₃ = true := by
  intro l₁
  induction l₁ with
  | nil =>
    intro l₂ l₃ h12 h23
    cases l₂ with
    | nil => exact absurd h12 (by simp [charListLt])
    | cons b bs =>
      cases l₃ with
      | nil => exact absurd h23 (by simp [charListLt])
      | cons c cs => simp [charListLt]
  | cons a as ih =>
    intro l₂ l₃ h12 h23
    cases l₂ with
    | nil => exact absurd h12 (by simp [charListLt])
    | cons b bs =>
      cases l₃ with
      | nil => exact absurd h23 (by simp [charListLt])
      | cons c cs =>
        simp only [charListLt] at h12 h23 ⊢
        rcases lt_trichotomy a b with hab | hab | hab
        · rcases lt_trichotomy b c with hbc | hbc | hbc
          · simp [lt_trans hab hbc]
          · subst hbc
            simp [hab]
          · simp [hbc, not_lt.mpr (le_of_lt hbc)] at h23
        · subst hab
          rcases lt_trichotomy a c with hac | hac | hac
          · simp [hac]
          · subst hac
            simp only [lt_irrefl, if_false] at h12 h23 ⊢
            exact ih _ _ h12 h23
          · simp [hac, not_lt.mpr (le_of_lt hac)] at h23
        · simp [hab, not_lt.mpr (le_of_lt hab)] at h12

theorem charListLt_connex :
    ∀ l₁ l₂, charListLt l₁ l₂ = false → charListLt l₂ l₁ = false → l₁ = l₂ := by
  intro l₁
  induction l₁ with
  | nil =>
    intro l₂ h12 h21
    cases l₂ with
    | nil => rfl
    | cons b bs => simp [charListLt] at h12
  | cons a as ih =>
    intro l₂ h12 h21
    cases l₂ with
    | nil => simp [charListLt] at h21
    | cons b bs =>
      simp only [charListLt] at h12 h21
      rcases lt_trichotomy a b with hab | hab | hab
      · simp [hab] at h12
      · subst hab
        simp only [lt_irrefl, if_false] at h12 h21
        rw [ih bs h12 h21]
      · simp [hab] at h21

theorem charListLt_irrefl (l : List Char) : charListLt l l = false := by
  by_cases hx : charListLt l l = true
  · have := charListLt_asymm l l hx
    rw [this] at hx
    exact absurd hx (by simp)
  · simpa using hx

theorem lc_cases (a b : String) :
    localeCompare a b = -1 ∨ localeCompare a b = 0 ∨ localeCompare a b = 1 := by
  unfold localeCompare
  by_cases h1 : charListLt a.data b.data = true
  · simp [h1]
  · by_cases h2 : charListLt b.data a.data = true <;> simp [h1, h2]

theorem lc_eq_zero_iff (a b : String) : localeCompare a b = 0 ↔ a = b := by
  constructor
  · intro h
    unfold localeCompare at h
    by_cases h1 : charListLt a.data b.data = true
    · simp [h1] at h
    · by_cases h2 : charListLt b.data a.data = true
      · simp [h1, h2] at h
      · have hdq := charListLt_connex a.data b.data (by simpa using h1) (by simpa using h2)
        exact congrArg String.mk hdq
  · intro h
    subst h
    unfold localeCompare
    simp [charListLt_irrefl]

theorem lc_le_zero_iff (a b : String) :
    localeCompare a b ≤ 0 ↔ charListLt b.data a.data = false := by
  unfold localeCompare
  by_cases h1 : charListLt a.data b.data = true
  · simp [h1, charListLt_asymm _ _ h1]
  · by_cases h2 : charListLt b.data a.data = true <;> simp [h1, h2]

theorem lc_le_total (a b : String) : localeCompare a b ≤ 0 ∨ localeCompare b a ≤ 0 := by
  rw [lc_le_zero_iff, lc_le_zero_iff]
  by_cases h1 : charListLt a.data b.data = true
  · exact Or.inl (charListLt_asymm _ _ h1)
  · exact Or.inr (by simpa using h1)

theorem lc_le_trans (a b c : String) (h1 : localeCompare a b ≤ 0) (h2 : localeCompare b c ≤ 0) :
    localeCompare a c ≤ 0 := by
  rw [lc_le_zero_iff] at h1 h2 ⊢
  by_cases hca : charListLt c.data a.data = true
  · by_cases hbc : charListLt b.data c.data = true
    · have hba := charListLt_trans _ _ _ hbc hca
      rw [hba] at h1
      exact absurd h1 (by simp)
    · have hdq := charListLt_connex b.data c.data (by simpa using hbc) h2
      rw [← hdq] at hca
      rw [hca] at h1
      exact absurd h1 (by simp)
  · simpa using hca

theorem lc_antisymm (a b : String) (h1 : localeCompare a b ≤ 0) (h2 : localeCompare b a ≤ 0) :
    a = b := by
  rw [lc_le_zero_iff] at h1 h2
  exact congrArg String.mk (charListLt_connex a.data b.data h2 h1)

theorem sortInsert_perm {α : Type} (le : α → α → Bool) (x : α) (l : List α) :
    (sortInsert le x l).Perm (x :: l) := by
  induction l with
  | nil => exact List.Perm.refl _
  | cons y ys ih =>
    simp only [sortInsert]
    by_cases h : le y x = true
    · rw [if_pos h]
      exact (ih.cons y).trans (List.Perm.swap x y ys)
    · rw [if_neg h]

theorem jsSortAux_perm {α : Type} (le : α → α → Bool) :
    ∀ (l acc : List α), (jsSortAux le acc l).Perm (acc ++ l) := by
  intro l
  induction l with
  | nil => intro acc; simp [jsSortAux]
  | cons x xs ih =>
    intro acc
    simp only [jsSortAux]
    have h1 := ih (sortInsert le x acc)
    have h2 : (sortInsert le x acc ++ xs).Perm ((x :: acc) ++ xs) :=
      (sortInsert_perm le x acc).append_right xs
    exact (h1.trans h2).trans (List.perm_middle.symm)

theorem jsSort_perm {α : Type} (le : α → α → Bool) (l : List α) : (jsSort le l).Perm l := by
  have := jsSortAux_perm le l []
  simpa [jsSort] using this

theorem sortInsert_pairwise {α : Type} (le : α → α → Bool)
    (htot : ∀ a b : α, le a b = true ∨ le b a = true)
    (htr : ∀ a b c : α, le a b = true → le b c = true → le a c = true)
    (x : α) (l : List α) (h : l.Pairwise (fun a b => le a b = true)) :
    (sortInsert le x l).Pairwise (fun a b => le a b = true) := by
  induction l with
  | nil => simp [sortInsert]
  | cons y ys ih =>
    rcases List.pairwise_cons.mp h with ⟨hy, hys⟩
    simp only [sortInsert]
    by_cases hle : le y x = true
    · rw [if_pos hle]
      refine List.pairwise_cons.mpr ⟨?_, ih hys⟩
      intro z hz
      have hz' : z ∈ x :: ys := ((sortInsert_perm le x ys).mem_iff).mp hz
      rcases List.mem_cons.mp hz' with hzx | hzm
      · rw [hzx]
        exact hle
      · exact hy z hzm
    · rw [if_neg hle]
      have hxy : le x y = true := by
        rcases htot x y with h' | h'
        · exact h'
        · exact absurd h' hle
      refine List.pairwise_cons.mpr ⟨?_, h⟩
      intro z hz
      rcases List.mem_cons.mp hz with hzy | hzm
      · rw [hzy]
        exact hxy
      · exact htr x y z hxy (hy z hzm)

theorem jsSortAux_pairwise {α : Type} (le : α → α → Bool)
    (htot : ∀ a b : α, le a b = true ∨ le b a = true)
    (htr : ∀ a b c : α, le a b = true → le b c = true → le a c = true) :
    ∀ (l acc : List α), acc.Pairwise (fun a b => le a b = true) →
      (jsSortAux le acc l).Pairwise (fun a b => le a b = true) := by
  intro l
  induction l with
  | nil => intro acc hacc; exact hacc
  | cons x xs ih =>
    intro acc hacc
    exact ih (sortInsert le x acc) (sortInsert_pairwise le htot htr x acc hacc)

theorem jsSort_pairwise {α : Type} (le : α → α → Bool)
    (htot : ∀ a b : α, le a b = true ∨ le b a = true)
    (htr : ∀ a b c : α, le a b = true → le b c = true → le a c = true)
    (l : List α) : (jsSort le l).Pairwise (fun a b => le a b = true) :=
  jsSortAux_pairwise le htot htr l [] (List.Pairwise.nil)

end Timings

namespace Timings

theorem rowLeFn_iff (a b : SummaryRow) :
    rowLeFn a b = true ↔ (localeCompare a.measureName b.measureName ≤ 0
      ∧ (a.measureName = b.measureName → localeCompare a.url b.url ≤ 0)) := by
  simp only [rowLeFn, rowCompareFn, decide_eq_true_eq]
  rcases lc_cases a.measureName b.measureName with h | h | h
  · rw [h, if_pos (by norm_num : (-1 : Int) ≠ 0)]
    constructor
    · intro _
      refine ⟨by norm_num, fun heq => ?_⟩
      exact absurd ((lc_eq_zero_iff _ _).mpr heq) (by rw [h]; norm_num)
    · intro _
      norm_num
  · have heq := (lc_eq_zero_iff _ _).mp h
    rw [h, if_neg (by norm_num)]
    constructor
    · intro hu
      exact ⟨le_refl 0, fun _ => hu⟩
    · intro hcon
      exact hcon.2 heq
  · rw [h, if_pos (by norm_num : (1 : Int) ≠ 0)]
    constructor
    · intro h1
      norm_num at h1
    · intro hcon
      exact absurd hcon.1 (by norm_num)

theorem rowLeFn_total (a b : SummaryRow) : rowLeFn a b = true ∨ rowLeFn b a = true := by
  rw [rowLeFn_iff, rowLeFn_iff]
  rcases lc_cases a.measureName b.measureName with h | h | h
  · left
    refine ⟨by rw [h]; norm_num, fun heq => ?_⟩
    exact absurd ((lc_eq_zero_iff _ _).mpr heq) (by rw [h]; norm_num)
  · have heq := (lc_eq_zero_iff _ _).mp h
    have h' : localeCompare b.measureName a.measureName = 0 := (lc_eq_zero_iff _ _).mpr heq.symm
    rcases lc_le_total a.url b.url with hu | hu
    · left
      exact ⟨by rw [h], fun _ => hu⟩
    · right
      exact ⟨by rw [h'], fun _ => hu⟩
  · rcases lc_le_total a.measureName b.measureName with hle | hle
    · rw [h] at hle
      norm_num at hle
    · right
      refine ⟨hle, fun heq => ?_⟩
      exact absurd ((lc_eq_zero_iff _ _).mpr heq.symm) (by rw [h]; norm_num)

theorem rowLeFn_trans (a b c : SummaryRow) (h1 : rowLeFn a b = true) (h2 : rowLeFn b c = true) :
    rowLeFn a c = true := by
  rw [rowLeFn_iff] at h1 h2 ⊢
  obtain ⟨hm1, hu1⟩ := h1
  obtain ⟨hm2, hu2⟩ := h2
  refine ⟨lc_le_trans _ _ _ hm1 hm2, fun hac => ?_⟩
  have hba : localeCompare b.measureName a.measureName ≤ 0 := by
    have hm2' := hm2
    rw [← hac] at hm2'
    exact hm2'
  have hab_eq : a.measureName = b.measureName := lc_antisymm _ _ hm1 hba
  have hbc_eq : b.measureName = c.measureName := by rw [← hab_eq, hac]
  exact lc_le_trans _ _ _ (hu1 hab_eq) (hu2 hbc_eq)

theorem rowLeFn_antisymm (a b : SummaryRow) (h1 : rowLeFn a b = true) (h2 : rowLeFn b a = true) :
    a.measureName = b.measureName ∧ a.url = b.url := by
  rw [rowLeFn_iff] at h1 h2
  have heq := lc_antisymm _ _ h1.1 h2.1
  exact ⟨heq, lc_antisymm _ _ (h1.2 heq) (h2.2 heq.symm)⟩

/-- C9 (amended): the function-based `summarize()` sorts its rows by the stated
total order - primarily by measure name, secondarily by URL (`rowLeFn a b`
holds exactly when the measure names compare `≤ 0` and, on equal measure names,
the URLs compare `≤ 0`); the relation is total and transitive, ties force equal
sort keys, the output is a permutation of the input and adjacent rows are
always ordered, so the order is reproducible across runs.  The top-level
`argv.summarize` block, by contrast, compares by measure name only, so rows
sharing a measure name stay in insertion order and need not be secondarily
sorted by URL (see the counterexample). -/
theorem c9_fn_sort_total_order (rows : List SummaryRow) (a b c : SummaryRow) :
    (sortRowsFn rows).Perm rows
    ∧ (sortRowsFn rows).Pairwise (fun x y => rowLeFn x y = true)
    ∧ (rowLeFn a b = true ↔ (localeCompare a.measureName b.measureName ≤ 0
        ∧ (a.measureName = b.measureName → localeCompare a.url b.url ≤ 0)))
    ∧ (rowLeFn a b = true ∨ rowLeFn b a = true)
    ∧ (rowLeFn a b = true → rowLeFn b c = true → rowLeFn a c = true)
    ∧ (rowLeFn a b = true → rowLeFn b a = true →
        a.measureName = b.measureName ∧ a.url = b.url) :=
  ⟨jsSort_perm rowLeFn rows,
    jsSort_pairwise rowLeFn rowLeFn_total rowLeFn_trans rows,
    rowLeFn_iff a b, rowLeFn_total a b, rowLeFn_trans a b c, rowLeFn_antisymm a b⟩

def c9lhrB : TimingLhr := ⟨"b", [⟨"m", 5⟩]⟩

def c9lhrA : TimingLhr := ⟨"a", [⟨"m", 5⟩]⟩

/-- C9 counterexample: on two result files sharing the measure name `m` with
URLs `b` and `a` (in that input order), the top-level summarizer's output rows
are not sorted secondarily by URL - its comparator looks at the measure name
only and the stable sort keeps the insertion order `b` before `a`. -/
theorem c9_top_sort_not_secondary_ce :
    ∃ rows : List SummaryRow, summarizeTop none [c9lhrB, c9lhrA] = .ok rows
      ∧ ¬ rows.Pairwise (fun x y => rowLeFn x y = true) :=
  ⟨_, rfl, by decide⟩

def c9r1 : SummaryRow := ⟨"a", "a", 1, 0, 0, 0, 0⟩

def c9r2 : SummaryRow := ⟨"a", "b", 1, 0, 0, 0, 0⟩

def c9r3 : SummaryRow := ⟨"b", "a", 1, 0, 0, 0, 0⟩

theorem c9_fn_sort_total_order_witness :
    (sortRowsFn [c9r3, c9r2, c9r1]).Perm [c9r3, c9r2, c9r1]
    ∧ (sortRowsFn [c9r3, c9r2, c9r1]).Pairwise (fun x y => rowLeFn x y = true)
    ∧ (rowLeFn c9r1 c9r2 = true ∨ rowLeFn c9r2 c9r1 = true)
    ∧ rowLeFn c9r1 c9r3 = true
    ∧ (c9r1.measureName = c9r1.measureName ∧ c9r1.url = c9r1.url) := by
  have h := c9_fn_sort_total_order [c9r3, c9r2, c9r1] c9r1 c9r2 c9r3
  exact ⟨h.1, h.2.1, h.2.2.2.1,
    h.2.2.2.2.1 (by decide) (by decide),
    (c9_fn_sort_total_order [c9r3, c9r2, c9r1] c9r1 c9r1 c9r1).2.2.2.2.2 (by decide) (by decide)⟩

end Timings

namespace Timings

theorem mapFind_pushSample_eq (m : List (String × List ℚ)) (k : String) (v : ℚ) :
    mapFind (pushSample m k v) k = some ((mapFind m k).getD [] ++ [v]) := by
  induction m with
  | nil => simp [pushSample, mapFind]
  | cons p t ih =>
    obtain ⟨k', vs⟩ := p
    by_cases h : k' = k
    · subst h
      simp [pushSample, mapFind]
    · simp [pushSample, mapFind, h, ih]

theorem mapFind_pushSample_ne (m : List (String × List ℚ)) (k q : String) (v : ℚ)
    (h : q ≠ k) : mapFind (pushSample m k v) q = mapFind m q := by
  induction m with
  | nil => simp [pushSample, mapFind, Ne.symm h]
  | cons p t ih =>
    obtain ⟨k', vs⟩ := p
    by_cases hk : k' = k
    · subst hk
      simp [pushSample, mapFind, Ne.symm h]
    · simp [pushSample, mapFind, hk, ih]

theorem key_inj (url a b : String) (h : url ++ "@@@" ++ a = url ++ "@@@" ++ b) : a = b := by
  have hdata : (url.data ++ "@@@".data) ++ a.data = (url.data ++ "@@@".data) ++ b.data := by
    have := congrArg String.data h
    simpa [String.data_append, List.append_assoc] using this
  exact congrArg String.mk (List.append_cancel_left hdata)

theorem accumNames_replicate (url nm : String) (entries : List TimingEntry) (e0 : TimingEntry)
    (hfind : entries.find? (fun e => e.name = nm) = some e0) :
    ∀ (ns : List String) (m : List (String × List ℚ)),
      (∀ n ∈ ns, n ∈ entries.map (fun e => e.name)) →
      ∃ m', accumNames none url entries ns m = .ok m'
        ∧ (mapFind m' (url ++ "@@@" ++ nm)).getD []
            = (mapFind m (url ++ "@@@" ++ nm)).getD []
              ++ List.replicate (ns.count nm) e0.duration := by
  intro ns
  induction ns with
  | nil =>
    intro m _
    exact ⟨m, rfl, by simp⟩
  | cons n rest ih =>
    intro m hmem
    have hn : n ∈ entries.map (fun e => e.name) := hmem n (List.mem_cons_self n rest)
    have hfind_n : ∃ en, entries.find? (fun e => e.name = n) = some en := by
      have hsome : (entries.find? (fun e => e.name = n)).isSome := by
        rw [List.find?_isSome]
        obtain ⟨e, he, hname⟩ := List.mem_map.mp hn
        exact ⟨e, he, by simp [hname]⟩
      exact Option.isSome_iff_exists.mp hsome
    obtain ⟨en, hen⟩ := hfind_n
    have hstep : accumNames none url entries (n :: rest) m
        = accumNames none url entries rest (pushSample m (url ++ "@@@" ++ n) en.duration) := by
      simp [accumNames, keepName, hen]
    by_cases hcase : n = nm
    · subst hcase
      have hen0 : en = e0 := by
        rw [hen] at hfind
        exact Option.some.inj hfind
      subst hen0
      obtain ⟨m', hok, hval⟩ :=
        ih (pushSample m (url ++ "@@@" ++ n) en.duration)
          (fun x hx => hmem x (List.mem_cons_of_mem _ hx))
      refine ⟨m', by rw [hstep]; exact hok, ?_⟩
      rw [hval, mapFind_pushSample_eq]
      simp [List.count_cons_self, List.replicate_succ, List.append_assoc]
    · obtain ⟨m', hok, hval⟩ :=
        ih (pushSample m (url ++ "@@@" ++ n) en.duration)
          (fun x hx => hmem x (List.mem_cons_of_mem _ hx))
      refine ⟨m', by rw [hstep]; exact hok, ?_⟩
      rw [hval, mapFind_pushSample_ne]
      · rw [List.count_cons_of_ne (fun hx => hcase hx.symm)]
      · intro hkey
        exact hcase (key_inj url nm n hkey).symm

/-- C10: with duplicate measurement names in a result's timing log, the
accumulator pushes, once per occurrence of the name, the duration of the first
entry bearing that name (`entries.find` re-queries by name), so the sample list
for that key is that first duration replicated once per occurrence and the
durations of later same-named entries never appear. -/
theorem c10_duplicate_names_first_duration (url nm : String) (entries : List TimingEntry)
    (e0 : TimingEntry) (hfind : entries.find? (fun e => e.name = nm) = some e0) :
    ∃ m, accumLhr none ⟨url, entries⟩ [] = .ok m
      ∧ (mapFind m (url ++ "@@@" ++ nm)).getD []
          = List.replicate ((entries.map (fun e => e.name)).count nm) e0.duration
      ∧ ∀ d ∈ (mapFind m (url ++ "@@@" ++ nm)).getD [], d = e0.duration := by
  obtain ⟨m, hok, hval⟩ := accumNames_replicate url nm entries e0 hfind
    (entries.map (fun e => e.name)) [] (fun n hn => hn)
  have hval' : (mapFind m (url ++ "@@@" ++ nm)).getD []
      = List.replicate ((entries.map (fun e => e.name)).count nm) e0.duration := by
    rw [hval]
    simp [mapFind]
  refine ⟨m, hok, hval', ?_⟩
  intro d hd
  rw [hval'] at hd
  exact List.eq_of_mem_replicate hd

def c10entries : List TimingEntry := [⟨"a", 1⟩, ⟨"a", 2⟩]

theorem c10_duplicate_names_first_duration_witness :
    c10entries.find? (fun e => e.name = "a") = some ⟨"a", (1 : ℚ)⟩
    ∧ ∃ m, accumLhr none ⟨"u", c10entries⟩ [] = .ok m
      ∧ (mapFind m ("u" ++ "@@@" ++ "a")).getD []
          = List.replicate ((c10entries.map (fun e => e.name)).count "a") (1 : ℚ)
      ∧ ∀ d ∈ (mapFind m ("u" ++ "@@@" ++ "a")).getD [], d = (1 : ℚ) :=
  ⟨by decide,
    c10_duplicate_names_first_duration "u" "a" c10entries ⟨"a", (1 : ℚ)⟩ (by decide)⟩

end Timings
